import Mathlib

/-!
# Verification of the Legend patcher engine (src/components/Patcher.jsx)

A shallow embedding of the fuzzy line-matching and patch-application engine:
text normalization, Levenshtein edit distance, exact/close candidate search,
the legend-script command parser, the sequential patch executor with its
user-resolution interface, the annotated diff builder, and the aggregate
statistics reported after an apply run.

Lines of text are modelled as lists of Unicode code points (`List Char`).
The user-facing resolution dialog is modelled as an explicit resolver
function supplied to the executor.
-/

set_option maxHeartbeats 1000000

namespace LegendPatcher

/-- A line of text, modelled as its list of code points. -/
abbrev Str := List Char

/-! ## Normalization (function `normalize`)

`normalize` strips zero-width characters, trims surrounding whitespace,
lower-cases, then collapses every whitespace run to a single space. -/

/-- The characters removed by the zero-width strip
(the regular expression class U+200B to U+200D and U+FEFF). -/
def isZeroWidth (c : Char) : Bool :=
  decide ((0x200B ≤ c.toNat ∧ c.toNat ≤ 0x200D) ∨ c.toNat = 0xFEFF)

/-- JavaScript whitespace: the character class matched by the regular
expression class backslash-s, which is also the set removed by
String.prototype.trim (tab, line terminators, space, NBSP, the Unicode
space separators, and U+FEFF). -/
def isWs (c : Char) : Bool :=
  decide (c.toNat = 0x9 ∨ c.toNat = 0xA ∨ c.toNat = 0xB ∨ c.toNat = 0xC ∨ c.toNat = 0xD ∨
    c.toNat = 0x20 ∨ c.toNat = 0xA0 ∨ c.toNat = 0x1680 ∨
    (0x2000 ≤ c.toNat ∧ c.toNat ≤ 0x200A) ∨
    c.toNat = 0x2028 ∨ c.toNat = 0x2029 ∨ c.toNat = 0x202F ∨
    c.toNat = 0x205F ∨ c.toNat = 0x3000 ∨ c.toNat = 0xFEFF)

/-- Lower-casing of one code point, the mapping applied pointwise by
String.prototype.toLowerCase on the basic latin letters. -/
def lowerChar (c : Char) : Char :=
  if 65 ≤ c.toNat ∧ c.toNat ≤ 90 then Char.ofNat (c.toNat + 32) else c

/-- `String.prototype.trim`: remove whitespace from both ends. -/
def jsTrim (s : Str) : Str :=
  ((s.dropWhile isWs).reverse.dropWhile isWs).reverse

/-- One pass of the replacement of the regular expression backslash-s-plus by
a single space: `prevWs` records whether the previous character belonged to a
whitespace run already replaced. -/
def collapseWsAux : Bool → Str → Str
  | _, [] => []
  | prevWs, c :: rest =>
    if isWs c then
      if prevWs then collapseWsAux true rest
      else ' ' :: collapseWsAux true rest
    else c :: collapseWsAux false rest

/-- Replace every maximal whitespace run by one space. -/
def collapseWs (s : Str) : Str := collapseWsAux false s

/-- `normalize(line)`: strip zero-width characters, trim, lower-case,
collapse whitespace runs, in that order. -/
def normalize (line : Str) : Str :=
  collapseWs ((jsTrim (line.filter (fun c => !isZeroWidth c))).map lowerChar)

/-! ## Levenshtein distance (function `levenshtein`)

The source builds the classic dynamic-programming matrix `m` with
`m[i][j]` the distance between the first `i` characters of `b` and the
first `j` characters of `a`; we build it row by row. -/

/-- Cells `m[i][1..]` of one matrix row, given the character `b[i-1]`, the
cell `m[i][j-1]` just computed (`left`), and the tail of the previous row
starting at `m[i-1][j-1]`. -/
def levRowAux (bc : Char) : List Char → Nat → List Nat → List Nat
  | [], _, _ => []
  | ac :: as, left, prev =>
    match prev with
    | pdiag :: ptail =>
      let pup := ptail.headD 0
      let cur := if bc = ac then pdiag else Nat.min (Nat.min (pdiag + 1) (left + 1)) (pup + 1)
      cur :: levRowAux bc as cur ptail
    | [] => []

/-- Fold the rows `m[1]`, `m[2]`, ... over the characters of `b`;
`i` is the current row number and `prev` the full previous row. -/
def levLoop (a : Str) : List Char → Nat → List Nat → List Nat
  | [], _, prev => prev
  | bc :: bs, i, prev => levLoop a bs (i + 1) (i :: levRowAux bc a i prev)

/-- `levenshtein(a, b)`: edit distance with the two early returns for empty
strings, then the matrix fill; the result is `m[b.length][a.length]`. -/
def levenshtein (a b : Str) : Nat :=
  if a.length = 0 then b.length
  else if b.length = 0 then a.length
  else (levLoop a b 1 (List.range (a.length + 1))).getD a.length 0

/-! ## Match resolver (functions `findAllFuzzyMatches`, `findLineMatches`) -/

/-- The `forEach` of `findAllFuzzyMatches`, carrying the running index. -/
def findAllFuzzyMatchesAux (targetNorm : Str) : Nat → List Str → List Nat
  | _, [] => []
  | idx, txt :: rest =>
    if normalize txt = targetNorm then idx :: findAllFuzzyMatchesAux targetNorm (idx + 1) rest
    else findAllFuzzyMatchesAux targetNorm (idx + 1) rest

/-- `findAllFuzzyMatches(lines, targetNorm)`: all indices whose normalized
text equals the (already normalized) target. -/
def findAllFuzzyMatches (lines : List Str) (targetNorm : Str) : List Nat :=
  findAllFuzzyMatchesAux targetNorm 0 lines

/-- One element of the `distances` array: `{idx, text, dist}`. -/
structure DistEntry where
  idx : Nat
  text : Str
  dist : Nat
deriving DecidableEq

/-- The `lines.map((txt, idx) => ...)` building the distances array,
carrying the running index. -/
def distancesAux (targetNorm : Str) : Nat → List Str → List DistEntry
  | _, [] => []
  | idx, txt :: rest =>
    ⟨idx, txt, levenshtein (normalize txt) targetNorm⟩ :: distancesAux targetNorm (idx + 1) rest

/-- Insertion step of a stable ascending-by-`dist` sort: the new element
goes after every already-placed element of smaller or equal distance. -/
def insertByDist (x : DistEntry) : List DistEntry → List DistEntry
  | [] => [x]
  | y :: ys => if y.dist ≤ x.dist then y :: insertByDist x ys else x :: y :: ys

/-- `distances.sort((a, b) => a.dist - b.dist)`: ECMAScript `Array.prototype.sort`
is required to be stable, and with this comparator it sorts ascending by
`dist` keeping equal-distance entries in original order; any stable
insertion realizes exactly that result. -/
def sortByDist (l : List DistEntry) : List DistEntry :=
  l.foldl (fun acc x => insertByDist x acc) []

/-- `{exact, close}` as returned by `findLineMatches`. -/
structure MatchResult where
  exact : List Nat
  close : List DistEntry
deriving DecidableEq

/-- `findLineMatches(lines, target)`: all exact normalized matches; if none,
the lines sorted by ascending distance and filtered by the threshold
`Math.floor(targetNorm.length / 2) || 1`. -/
def findLineMatches (lines : List Str) (target : Str) : MatchResult :=
  let targetNorm := normalize target
  let exactMatches := findAllFuzzyMatches lines targetNorm
  if exactMatches.length > 0 then
    { exact := exactMatches, close := [] }
  else
    let distances := distancesAux targetNorm 0 lines
    let sorted := sortByDist distances
    let threshold := if targetNorm.length / 2 = 0 then 1 else targetNorm.length / 2
    { exact := [], close := sorted.filter (fun d => d.dist ≤ threshold) }

/-! ## Command parser (function `parseCommands`) -/

/-- A parsed legend-script operation. -/
inductive Op where
  | delete (content : Str)
  | replace (oldLines : List Str) (newLines : List Str)
  | insert (anchor : Str) (newLines : List Str)
deriving DecidableEq

/-- The inner `while` loop collecting the consecutive continuation lines
(trimmed lines starting with `pre`); each captured line is the trimmed line
with `dropLen` characters removed and re-trimmed. Also returns how many
script lines were consumed. -/
def takeContinuation (pre : Str) (dropLen : Nat) : List Str → List Str × Nat
  | [] => ([], 0)
  | l :: rest =>
    if pre.isPrefixOf (jsTrim l) then
      let r := takeContinuation pre dropLen rest
      (jsTrim ((jsTrim l).drop dropLen) :: r.1, r.2 + 1)
    else ([], 0)

/-- `parseCommands(lines)`: single left-to-right pass recognizing the
`D-`, `M-`/`M+-` and `AF+`/`NAD+` directives on trimmed lines; any other
line is skipped. -/
def parseCommands : List Str → List Op
  | [] => []
  | l :: rest =>
    let raw := jsTrim l
    if (['D', '-'] : Str).isPrefixOf raw then
      Op.delete (jsTrim (raw.drop 2)) :: parseCommands rest
    else if (['M', '-'] : Str).isPrefixOf raw then
      let r := takeContinuation ['M', '+', '-'] 3 rest
      Op.replace [jsTrim (raw.drop 2)] r.1 :: parseCommands (rest.drop r.2)
    else if (['A', 'F', '+'] : Str).isPrefixOf raw then
      let r := takeContinuation ['N', 'A', 'D', '+'] 4 rest
      Op.insert (jsTrim (raw.drop 3)) r.1 :: parseCommands (rest.drop r.2)
    else parseCommands rest
termination_by l => l.length
decreasing_by
  all_goals simp only [List.length_cons, List.length_drop]
  all_goals omega

/-! ## Annotated diff builder (function `buildAnnotatedResult`) -/

/-- Status tag of a line in the annotated view. -/
inductive LineStatus where
  | unchanged
  | deleted
  | inserted
deriving DecidableEq

/-- One entry `{text, status}` of the annotated sequence. -/
structure AnnLine where
  text : Str
  status : LineStatus
deriving DecidableEq

/-- The `findIndex` of `findFirstFuzzyIndex`, carrying the running index:
first entry whose normalized text equals `normTxt` and whose status is
still `unchanged`. -/
def findFirstFuzzyIndexAux (normTxt : Str) : Nat → List AnnLine → Option Nat
  | _, [] => none
  | i, a :: rest =>
    if normalize a.text = normTxt ∧ a.status = LineStatus.unchanged then some i
    else findFirstFuzzyIndexAux normTxt (i + 1) rest

/-- `findFirstFuzzyIndex(txt)` over the current annotated sequence. -/
def findFirstFuzzyIndex (annotated : List AnnLine) (txt : Str) : Option Nat :=
  findFirstFuzzyIndexAux (normalize txt) 0 annotated

/-- The body of the `ops.forEach` of `buildAnnotatedResult`: apply one
operation to the annotated sequence. -/
def annStep (annotated : List AnnLine) (op : Op) : List AnnLine :=
  match op with
  | .delete content =>
    match findFirstFuzzyIndex annotated content with
    | some i => annotated.set i ⟨(annotated.getD i ⟨[], .unchanged⟩).text, .deleted⟩
    | none => annotated
  | .replace oldLines newLines =>
    match findFirstFuzzyIndex annotated (oldLines.headD []) with
    | some i =>
      let marked := annotated.set i ⟨(annotated.getD i ⟨[], .unchanged⟩).text, .deleted⟩
      let ins := newLines.map (fun n => (⟨n, .inserted⟩ : AnnLine))
      marked.take (i + 1) ++ ins ++ marked.drop (i + 1)
    | none => annotated
  | .insert anchor newLines =>
    match findFirstFuzzyIndex annotated anchor with
    | some i =>
      let ins := newLines.map (fun n => (⟨n, .inserted⟩ : AnnLine))
      annotated.take (i + 1) ++ ins ++ annotated.drop (i + 1)
    | none => annotated

/-- `buildAnnotatedResult(original, ops)`: tag every original line
`unchanged`, run the operations in order, and keep the entries whose status
is not `unchanged`. -/
def buildAnnotatedResult (original : List Str) (ops : List Op) : List AnnLine :=
  (ops.foldl annStep (original.map fun txt => (⟨txt, .unchanged⟩ : AnnLine))).filter
    (fun a => a.status != LineStatus.unchanged)

/-! ## Patch executor (functions `handleApply`, `applyDelete`, `applyReplace`,
`applyInsert`, `findLineIndexWithConfirmation`)

The choice dialog is modelled as a resolver function: given the operation
and the candidate list shown to the user, it answers with a chosen line
index (dialog Confirm) or with a skip (dialog Skip). -/

/-- One radio choice of the dialog: `{idx, text, dist?, exact}`. -/
structure DialogChoice where
  idx : Nat
  text : Str
  dist : Option Nat
  exact : Bool
deriving DecidableEq

/-- The user's answer to one choice dialog. -/
inductive Resolution where
  | choose (idx : Nat)
  | skipped
deriving DecidableEq

/-- The external decision interface: the dialog collaborator. -/
abbrev Resolver := Op → List DialogChoice → Resolution

/-- The `{lineIndex, skip}` value with which
`findLineIndexWithConfirmation`'s promise resolves. -/
structure ConfirmResult where
  lineIndex : Option Nat
  skip : Bool
deriving DecidableEq

/-- Outcome of showing the choice dialog: Confirm resolves with the chosen
index and `skip: false`; Skip resolves with no index and `skip: true`. -/
def runResolver (R : Resolver) (op : Op) (choices : List DialogChoice) : ConfirmResult :=
  match R op choices with
  | .choose i => ⟨some i, false⟩
  | .skipped => ⟨none, true⟩

/-- `findLineIndexWithConfirmation(lines, target, op)`. -/
def findLineIndexWithConfirmation (R : Resolver) (lines : List Str) (target : Str) (op : Op) :
    ConfirmResult :=
  let m := findLineMatches lines target
  if m.exact.length = 0 ∧ m.close.length = 0 then ⟨none, false⟩
  else if m.exact.length = 1 then ⟨some (m.exact.headD 0), false⟩
  else if m.exact.length > 1 then
    runResolver R op (m.exact.map fun idx => ⟨idx, lines.getD idx [], none, true⟩)
  else
    runResolver R op (m.close.map fun c => ⟨c.idx, c.text, some c.dist, false⟩)

/-- The search target of an operation: `content` for Delete, `oldLines[0]`
for Replace, `anchor` for Insert. -/
def opTarget : Op → Str
  | .delete content => content
  | .replace oldLines _ => oldLines.headD []
  | .insert anchor _ => anchor

/-- The lines inserted by an operation (empty for Delete). -/
def opNewLines : Op → List Str
  | .delete _ => []
  | .replace _ newLines => newLines
  | .insert _ newLines => newLines

/-- One executor step: `applyDelete` / `applyReplace` / `applyInsert`.
Each finds the line index with confirmation; on skip or no index the buffer
is returned unchanged, otherwise the splice is performed:
Delete `splice(i, 1)`, Replace `splice(i, 1, ...newLines)`,
Insert `splice(i + 1, 0, ...newLines)`. -/
def applyOp (R : Resolver) (lines : List Str) (op : Op) : List Str :=
  let r := findLineIndexWithConfirmation R lines (opTarget op) op
  if r.skip then lines
  else
    match r.lineIndex with
    | none => lines
    | some i =>
      match op with
      | .delete _ => lines.take i ++ lines.drop (i + 1)
      | .replace _ newLines => lines.take i ++ newLines ++ lines.drop (i + 1)
      | .insert _ newLines => lines.take (i + 1) ++ newLines ++ lines.drop (i + 1)

/-- The `for (let op of selectedOps)` loop of `handleApply`: the operations
mutate one shared buffer in script order. -/
def applyOps (R : Resolver) (lines : List Str) (ops : List Op) : List Str :=
  ops.foldl (applyOp R) lines

/-- Recognizers for the three operation kinds (the `o.type === ...` tests). -/
def isDeleteOp : Op → Bool
  | .delete _ => true
  | _ => false

/-- See `isDeleteOp`. -/
def isReplaceOp : Op → Bool
  | .replace _ _ => true
  | _ => false

/-- See `isDeleteOp`. -/
def isInsertOp : Op → Bool
  | .insert _ _ => true
  | _ => false

/-- The `stats` record set by `handleApply`. -/
structure Stats where
  deletes : Nat
  replaces : Nat
  inserts : Nat
deriving DecidableEq

/-- The statistics computed at the end of `handleApply`: the number of
selected delete operations, the number of selected replace operations, and
the total `newLines.length` over the selected insert operations. -/
def computeStats (selectedOps : List Op) : Stats :=
  { deletes := (selectedOps.filter isDeleteOp).length
    replaces := (selectedOps.filter isReplaceOp).length
    inserts := (selectedOps.filter isInsertOp).foldl
      (fun sum o => sum + (match o with
        | .insert _ newLines => newLines.length
        | _ => 0)) 0 }

/-- `handleApply`: apply the selected operations to the original lines,
build the annotated diff from the pristine original, and compute the
statistics. Returns `(resultText, annotated, stats)`. -/
def handleApply (R : Resolver) (origLines : List Str) (selectedOps : List Op) :
    List Str × List AnnLine × Stats :=
  (applyOps R origLines selectedOps,
   buildAnnotatedResult origLines selectedOps,
   computeStats selectedOps)

/-- A concrete resolver that always answers Skip; used to instantiate runs
in which no dialog is ever reached. -/
def skipAllResolver : Resolver := fun _ _ => Resolution.skipped

/-- Convert a string literal to its code-point list. -/
def toL (s : String) : Str := s.toList

/-! ## Helper predicates used to state the normal form of `normalize` -/

/-- No zero-width character occurs. -/
def NoZW (s : Str) : Prop := ∀ c ∈ s, isZeroWidth c = false

/-- Every character is fixed by lower-casing. -/
def AllLower (s : Str) : Prop := ∀ c ∈ s, lowerChar c = c

/-- Every whitespace character is a plain space. -/
def WsIsSpace (s : Str) : Prop := ∀ c ∈ s, isWs c = true → c = ' '

/-- The first character, when present, is not whitespace. -/
def HeadNotWs (s : Str) : Prop := ∀ c, s.head? = some c → isWs c = false

/-- The last character, when present, is not whitespace. -/
def LastNotWs (s : Str) : Prop := ∀ c, s.getLast? = some c → isWs c = false

/-- No two adjacent characters are both whitespace. -/
def NoDoubleWs (s : Str) : Prop := s.Chain' fun a b => ¬(isWs a = true ∧ isWs b = true)

/-- The normal form guaranteed for every output of `normalize`. -/
def Normalized (s : Str) : Prop :=
  NoZW s ∧ AllLower s ∧ WsIsSpace s ∧ HeadNotWs s ∧ LastNotWs s ∧ NoDoubleWs s

/-- Order in which a stable ascending-by-distance sort of an
ascending-index list must leave any two entries: strictly smaller
distance first, ties in original (index) order. -/
def DistLex (a b : DistEntry) : Prop :=
  a.dist < b.dist ∨ (a.dist = b.dist ∧ a.idx < b.idx)

/-! ## Character-level lemmas -/

theorem char_toNat_ofNat (n : Nat) (h : n < 0xD800) : (Char.ofNat n).toNat = n := by
  rw [Char.ofNat, dif_pos (Or.inl h)]
  rfl

theorem lowerChar_toNat_of_upper (c : Char) (h : 65 ≤ c.toNat ∧ c.toNat ≤ 90) :
    (lowerChar c).toNat = c.toNat + 32 := by
  rw [lowerChar, if_pos h, char_toNat_ofNat]
  omega

theorem lowerChar_eq_of_not_upper (c : Char) (h : ¬(65 ≤ c.toNat ∧ c.toNat ≤ 90)) :
    lowerChar c = c := by
  rw [lowerChar, if_neg h]

theorem lowerChar_idem (c : Char) : lowerChar (lowerChar c) = lowerChar c := by
  by_cases h : 65 ≤ c.toNat ∧ c.toNat ≤ 90
  · have h2 := lowerChar_toNat_of_upper c h
    rw [lowerChar, if_neg (by omega)]
  · have e := lowerChar_eq_of_not_upper c h
    rw [e, e]

theorem isWs_lowerChar (c : Char) : isWs (lowerChar c) = isWs c := by
  by_cases h : 65 ≤ c.toNat ∧ c.toNat ≤ 90
  · have h2 := lowerChar_toNat_of_upper c h
    simp only [isWs, h2, decide_eq_decide]
    omega
  · rw [lowerChar_eq_of_not_upper c h]

theorem isZeroWidth_lowerChar (c : Char) : isZeroWidth (lowerChar c) = isZeroWidth c := by
  by_cases h : 65 ≤ c.toNat ∧ c.toNat ≤ 90
  · have h2 := lowerChar_toNat_of_upper c h
    simp only [isZeroWidth, h2, decide_eq_decide]
    omega
  · rw [lowerChar_eq_of_not_upper c h]

/-! ## Lemmas about `jsTrim` -/

theorem head?_dropWhile_not (p : Char → Bool) (l : Str) (c : Char)
    (h : (l.dropWhile p).head? = some c) : p c = false := by
  induction l with
  | nil => simp [List.dropWhile] at h
  | cons a t ih =>
    by_cases hp : p a
    · rw [List.dropWhile_cons_of_pos hp] at h
      exact ih h
    · rw [List.dropWhile_cons_of_neg hp] at h
      simp at h
      rw [← h]
      exact Bool.of_not_eq_true hp

theorem getLast?_dropWhile_of_ne_nil (p : Char → Bool) (l : Str)
    (h : l.dropWhile p ≠ []) : (l.dropWhile p).getLast? = l.getLast? := by
  conv_rhs => rw [← List.takeWhile_append_dropWhile (p := p) (l := l)]
  rw [List.getLast?_append]
  rcases hx : (l.dropWhile p).getLast? with _ | a
  · rw [List.getLast?_eq_none_iff] at hx
    exact absurd hx h
  · rfl

theorem jsTrim_head_not_ws (s : Str) : HeadNotWs (jsTrim s) := by
  intro c h
  rw [jsTrim, List.head?_reverse] at h
  by_cases hnil : (s.dropWhile isWs).reverse.dropWhile isWs = []
  · rw [hnil] at h
    simp at h
  · rw [getLast?_dropWhile_of_ne_nil _ _ hnil, List.getLast?_reverse] at h
    exact head?_dropWhile_not isWs _ c h

theorem jsTrim_last_not_ws (s : Str) : LastNotWs (jsTrim s) := by
  intro c h
  rw [jsTrim, List.getLast?_reverse] at h
  exact head?_dropWhile_not isWs _ c h

theorem mem_of_mem_jsTrim {s : Str} {c : Char} (h : c ∈ jsTrim s) : c ∈ s := by
  rw [jsTrim, List.mem_reverse] at h
  have h2 := (List.dropWhile_sublist isWs).mem h
  rw [List.mem_reverse] at h2
  exact (List.dropWhile_sublist isWs).mem h2

theorem dropWhile_eq_self_of_head (p : Char → Bool) (l : Str)
    (h : ∀ c, l.head? = some c → p c = false) : l.dropWhile p = l := by
  cases l with
  | nil => rfl
  | cons a t =>
    have := h a rfl
    simp [List.dropWhile, this]

theorem jsTrim_eq_self {s : Str} (h1 : HeadNotWs s) (h2 : LastNotWs s) : jsTrim s = s := by
  rw [jsTrim, dropWhile_eq_self_of_head isWs s h1, dropWhile_eq_self_of_head, List.reverse_reverse]
  intro c hc
  rw [List.head?_reverse] at hc
  exact h2 c hc

theorem jsTrim_eq_nil_iff {s : Str} : jsTrim s = [] ↔ ∀ c ∈ s, isWs c = true := by
  rw [jsTrim, List.reverse_eq_nil_iff, List.dropWhile_eq_nil_iff]
  constructor
  · intro h c hc
    by_contra hw
    have hc2 : c ∈ s.dropWhile isWs := by
      by_contra hno
      have : s.dropWhile isWs = [] → c ∉ s.dropWhile isWs := fun he => by simp [he]
      -- c is in s; if it survives neither dropWhile nor is dropped... direct route below
      exact hno (by
        -- c ∈ s and c not whitespace: c cannot be dropped by dropWhile from the left only
        -- use: s = takeWhile ++ dropWhile, takeWhile elements satisfy isWs
        rcases List.mem_append.mp (by rw [List.takeWhile_append_dropWhile (p := isWs) (l := s)]; exact hc) with h1 | h2
        · exact absurd (List.mem_takeWhile_imp h1) hw
        · exact h2)
    have := h c (by rw [List.mem_reverse]; exact hc2)
    exact hw (by simpa using this)
  · intro h c hc
    rw [List.mem_reverse] at hc
    exact by simpa using h c ((List.dropWhile_sublist isWs).mem hc)

/-! ## Lemmas about `collapseWs` -/

theorem mem_collapseWsAux {c : Char} :
    ∀ (b : Bool) (l : Str), c ∈ collapseWsAux b l → c = ' ' ∨ c ∈ l := by
  intro b l
  induction l generalizing b with
  | nil => simp [collapseWsAux]
  | cons a t ih =>
    intro h
    rw [collapseWsAux] at h
    by_cases hw : isWs a
    · rw [if_pos hw] at h
      by_cases hb : b
      · subst hb
        rw [if_pos rfl] at h
        rcases ih true h with h1 | h2
        · exact Or.inl h1
        · exact Or.inr (List.mem_cons_of_mem a h2)
      · simp only [hb, if_false] at h
        rcases List.mem_cons.mp h with h1 | h2
        · exact Or.inl h1
        · rcases ih true h2 with h3 | h4
          · exact Or.inl h3
          · exact Or.inr (List.mem_cons_of_mem a h4)
    · rw [if_neg hw] at h
      rcases List.mem_cons.mp h with h1 | h2
      · exact Or.inr (h1 ▸ List.mem_cons_self a t)
      · rcases ih false h2 with h3 | h4
        · exact Or.inl h3
        · exact Or.inr (List.mem_cons_of_mem a h4)

theorem wsIsSpace_collapseWsAux :
    ∀ (b : Bool) (l : Str) (c : Char), c ∈ collapseWsAux b l → isWs c = true → c = ' ' := by
  intro b l
  induction l generalizing b with
  | nil => simp [collapseWsAux]
  | cons a t ih =>
    intro c h hc
    rw [collapseWsAux] at h
    by_cases hw : isWs a
    · rw [if_pos hw] at h
      by_cases hb : b
      · subst hb
        rw [if_pos rfl] at h
        exact ih true c h hc
      · simp only [hb, if_false] at h
        rcases List.mem_cons.mp h with h1 | h2
        · exact h1
        · exact ih true c h2 hc
    · rw [if_neg hw] at h
      rcases List.mem_cons.mp h with h1 | h2
      · rw [h1] at hc
        exact absurd hc (by simpa using hw)
      · exact ih false c h2 hc

theorem head?_collapseWsAux_true (l : Str) (c : Char)
    (h : (collapseWsAux true l).head? = some c) : isWs c = false := by
  induction l with
  | nil => simp [collapseWsAux] at h
  | cons a t ih =>
    rw [collapseWsAux] at h
    by_cases hw : isWs a
    · rw [if_pos hw, if_pos rfl] at h
      exact ih h
    · rw [if_neg hw] at h
      simp at h
      rw [← h]
      exact Bool.of_not_eq_true hw

theorem noDoubleWs_collapseWsAux : ∀ (b : Bool) (l : Str), NoDoubleWs (collapseWsAux b l) := by
  intro b l
  induction l generalizing b with
  | nil => simp [collapseWsAux, NoDoubleWs]
  | cons a t ih =>
    rw [NoDoubleWs, collapseWsAux]
    by_cases hw : isWs a
    · rw [if_pos hw]
      by_cases hb : b
      · subst hb
        rw [if_pos rfl]
        exact ih true
      · rw [Bool.not_eq_true] at hb
        subst hb
        rw [if_neg (by simp)]
        rw [List.chain'_cons']
        refine ⟨?_, ih true⟩
        intro y hy
        intro hcon
        have := head?_collapseWsAux_true t y (by simpa using hy)
        rw [this] at hcon
        exact absurd hcon.2 (by simp)
    · rw [if_neg hw]
      rw [List.chain'_cons']
      refine ⟨?_, ih false⟩
      intro y hy hcon
      rw [Bool.of_not_eq_true hw] at hcon
      exact absurd hcon.1 (by simp)

theorem head?_collapseWsAux_false (l : Str) (c : Char) (hh : l.head? = some c)
    (hc : isWs c = false) : (collapseWsAux false l).head? = some c := by
  cases l with
  | nil => simp at hh
  | cons a t =>
    simp only [List.head?_cons, Option.some.injEq] at hh
    subst hh
    rw [collapseWsAux, if_neg (by simp [hc])]
    rfl

theorem collapseWsAux_false_ne_nil (a : Char) (t : Str) : collapseWsAux false (a :: t) ≠ [] := by
  rw [collapseWsAux]
  by_cases hw : isWs a
  · rw [if_pos hw]
    simp
  · rw [if_neg hw]
    simp

theorem collapseWsAux_true_eq_nil_iff (l : Str) :
    collapseWsAux true l = [] ↔ ∀ c ∈ l, isWs c = true := by
  induction l with
  | nil => simp [collapseWsAux]
  | cons a t ih =>
    rw [collapseWsAux]
    by_cases hw : isWs a
    · rw [if_pos hw, if_pos rfl, ih]
      constructor
      · intro h c hc
        rcases List.mem_cons.mp hc with h1 | h2
        · rw [h1]
          exact hw
        · exact h c h2
      · intro h c hc
        exact h c (List.mem_cons_of_mem a hc)
    · rw [if_neg hw]
      simp only [List.cons_ne_nil, false_iff]
      intro h
      exact hw (h a (List.mem_cons_self a t))

theorem lastNotWs_collapseWsAux :
    ∀ (l : Str) (b : Bool), LastNotWs l → LastNotWs (collapseWsAux b l) := by
  intro l
  induction l with
  | nil =>
    intro b _
    simp [collapseWsAux, LastNotWs]
  | cons a t ih =>
    intro b h
    cases t with
    | nil =>
      have ha : isWs a = false := h a rfl
      rw [collapseWsAux, if_neg (by simp [ha])]
      intro c hc
      simp only [collapseWsAux, List.getLast?_singleton, Option.some.injEq] at hc
      rw [← hc]
      exact ha
    | cons x t2 =>
      have ht : LastNotWs (x :: t2) := by
        intro c hc
        exact h c (by rw [List.getLast?_cons_cons]; exact hc)
      rw [collapseWsAux]
      by_cases hw : isWs a
      · rw [if_pos hw]
        by_cases hb : b
        · subst hb
          rw [if_pos rfl]
          exact ih true ht
        · rw [Bool.not_eq_true] at hb
          subst hb
          rw [if_neg (by simp)]
          rcases hrec : collapseWsAux true (x :: t2) with _ | ⟨y, r⟩
          · exfalso
            have hall := (collapseWsAux_true_eq_nil_iff (x :: t2)).mp hrec
            rcases hg : (x :: t2).getLast? with _ | d
            · rw [List.getLast?_eq_none_iff] at hg
              exact List.cons_ne_nil x t2 hg
            · have h1 := ht d hg
              have h2 := hall d (List.mem_of_getLast?_eq_some hg)
              rw [h1] at h2
              exact Bool.noConfusion h2
          · intro c hc
            rw [List.getLast?_cons_cons, ← hrec] at hc
            exact ih true ht c hc
      · rw [if_neg hw]
        rcases hrec : collapseWsAux false (x :: t2) with _ | ⟨y, r⟩
        · exact absurd hrec (collapseWsAux_false_ne_nil x t2)
        · intro c hc
          rw [List.getLast?_cons_cons, ← hrec] at hc
          exact ih false ht c hc

theorem collapseWsAux_eq_self (l : Str) (h1 : WsIsSpace l) (h2 : NoDoubleWs l) :
    collapseWsAux false l = l ∧ (HeadNotWs l → collapseWsAux true l = l) := by
  induction l with
  | nil => exact ⟨rfl, fun _ => rfl⟩
  | cons a t ih =>
    rw [NoDoubleWs, List.chain'_cons'] at h2
    obtain ⟨hR, h2t⟩ := h2
    have h1t : WsIsSpace t := fun c hc => h1 c (List.mem_cons_of_mem a hc)
    have iht := ih h1t h2t
    constructor
    · rw [collapseWsAux]
      by_cases hw : isWs a
      · rw [if_pos hw]
        rw [if_neg (by simp)]
        have ha : a = ' ' := h1 a (List.mem_cons_self a t) hw
        have htrue : collapseWsAux true t = t := by
          apply iht.2
          intro c hc
          have := hR c (by simpa using hc)
          by_contra hcc
          exact this ⟨hw, Bool.of_not_eq_false hcc⟩
        rw [htrue, ha]
      · rw [if_neg hw, iht.1]
    · intro hh
      have ha : isWs a = false := hh a rfl
      rw [collapseWsAux, if_neg (by simp [ha]), iht.1]

/-! ## The normal form of `normalize` and idempotency -/

theorem map_lowerChar_eq_self {l : Str} (h : AllLower l) : l.map lowerChar = l := by
  induction l with
  | nil => rfl
  | cons a t ih =>
    rw [List.map_cons, h a (List.mem_cons_self a t),
      ih (fun c hc => h c (List.mem_cons_of_mem a hc))]

theorem normalized_normalize (s : Str) : Normalized (normalize s) := by
  rw [normalize, collapseWs]
  set v := s.filter (fun c => !isZeroWidth c) with hv
  set u := (jsTrim v).map lowerChar with hu
  have humem : ∀ c ∈ u, ∃ d, c = lowerChar d ∧ d ∈ jsTrim v := by
    intro c hc
    rw [hu] at hc
    rcases List.mem_map.mp hc with ⟨d, hd, he⟩
    exact ⟨d, he.symm, hd⟩
  refine ⟨?_, ?_, ?_, ?_, ?_, ?_⟩
  · intro c hc
    rcases mem_collapseWsAux false u hc with h1 | h2
    · rw [h1]
      decide
    · rcases humem c h2 with ⟨d, he, hd⟩
      have hdv : d ∈ v := mem_of_mem_jsTrim hd
      rw [hv, List.mem_filter] at hdv
      have := hdv.2
      rw [he, isZeroWidth_lowerChar]
      simpa using this
  · intro c hc
    rcases mem_collapseWsAux false u hc with h1 | h2
    · rw [h1]
      decide
    · rcases humem c h2 with ⟨d, he, _⟩
      rw [he]
      exact lowerChar_idem d
  · exact fun c hc => wsIsSpace_collapseWsAux false u c hc
  · intro c hc
    rcases hh : (jsTrim v).head? with _ | d
    · have hun : u = [] := by
        rw [List.head?_eq_none_iff] at hh
        rw [hu, hh]
        rfl
      rw [hun] at hc
      simp [collapseWsAux] at hc
    · have hd := jsTrim_head_not_ws v d hh
      have hhu : u.head? = some (lowerChar d) := by
        rw [hu, List.head?_map, hh]
        rfl
      have haws : isWs (lowerChar d) = false := by
        rw [isWs_lowerChar]
        exact hd
      have hres := head?_collapseWsAux_false u (lowerChar d) hhu haws
      rw [hres] at hc
      simp only [Option.some.injEq] at hc
      rw [← hc]
      exact haws
  · apply lastNotWs_collapseWsAux
    intro c hc
    rw [hu, List.getLast?_map] at hc
    rcases hg : (jsTrim v).getLast? with _ | d
    · rw [hg] at hc
      simp at hc
    · rw [hg] at hc
      simp only [Option.map_some', Option.some.injEq] at hc
      rw [← hc, isWs_lowerChar]
      exact jsTrim_last_not_ws v d hg
  · exact noDoubleWs_collapseWsAux false u

theorem normalize_eq_self_of_normalized {t : Str} (h : Normalized t) : normalize t = t := by
  obtain ⟨hzw, hlow, hsp, hhead, hlast, hdbl⟩ := h
  rw [normalize]
  rw [List.filter_eq_self.mpr (by intro c hc; rw [hzw c hc]; rfl)]
  rw [jsTrim_eq_self hhead hlast]
  rw [map_lowerChar_eq_self hlow]
  rw [collapseWs]
  exact (collapseWsAux_eq_self t hsp hdbl).1

/-- Claim C9: `normalize` is idempotent. For every string `s`,
`normalize (normalize s) = normalize s`, where `normalize` strips
zero-width characters, trims surrounding whitespace, lower-cases, and
collapses whitespace runs to single spaces, in that order. -/
theorem c9_normalize_idempotent (s : Str) : normalize (normalize s) = normalize s :=
  normalize_eq_self_of_normalized (normalized_normalize s)

/-! ## Lemmas about `findAllFuzzyMatches` -/

theorem mem_findAllFuzzyMatchesAux (t : Str) (ls : List Str) :
    ∀ (k i : Nat), i ∈ findAllFuzzyMatchesAux t k ls ↔
      ∃ j, j < ls.length ∧ i = k + j ∧ normalize (ls.getD j []) = t := by
  induction ls with
  | nil => simp [findAllFuzzyMatchesAux]
  | cons a rest ih =>
    intro k i
    rw [findAllFuzzyMatchesAux]
    by_cases h : normalize a = t
    · rw [if_pos h]
      constructor
      · intro hm
        rcases List.mem_cons.mp hm with h1 | h2
        · exact ⟨0, by simp, by omega, by simpa using h⟩
        · rcases (ih (k + 1) i).mp h2 with ⟨j, hj, hij, hn⟩
          exact ⟨j + 1, by simpa using hj, by omega, by simpa using hn⟩
      · rintro ⟨j, hj, hij, hn⟩
        cases j with
        | zero =>
          simp only [Nat.add_zero] at hij
          exact hij ▸ List.mem_cons_self k _
        | succ j2 =>
          refine List.mem_cons_of_mem k ((ih (k + 1) i).mpr ⟨j2, ?_, by omega, ?_⟩)
          · simpa using hj
          · simpa using hn
    · rw [if_neg h]
      rw [ih (k + 1) i]
      constructor
      · rintro ⟨j, hj, hij, hn⟩
        exact ⟨j + 1, by simpa using hj, by omega, by simpa using hn⟩
      · rintro ⟨j, hj, hij, hn⟩
        cases j with
        | zero =>
          simp only [List.getD_cons_zero] at hn
          exact absurd hn h
        | succ j2 =>
          exact ⟨j2, by simpa using hj, by omega, by simpa using hn⟩

theorem sorted_findAllFuzzyMatchesAux (t : Str) (ls : List Str) :
    ∀ k, (∀ i ∈ findAllFuzzyMatchesAux t k ls, k ≤ i) ∧
      (findAllFuzzyMatchesAux t k ls).Pairwise (· < ·) := by
  induction ls with
  | nil => intro k; simp [findAllFuzzyMatchesAux]
  | cons a rest ih =>
    intro k
    rw [findAllFuzzyMatchesAux]
    by_cases h : normalize a = t
    · rw [if_pos h]
      refine ⟨?_, ?_⟩
      · intro i hi
        rcases List.mem_cons.mp hi with h1 | h2
        · omega
        · have := (ih (k + 1)).1 i h2
          omega
      · rw [List.pairwise_cons]
        refine ⟨?_, (ih (k + 1)).2⟩
        intro i hi
        have := (ih (k + 1)).1 i hi
        omega
    · rw [if_neg h]
      refine ⟨?_, (ih (k + 1)).2⟩
      intro i hi
      have := (ih (k + 1)).1 i hi
      omega

theorem mem_findAllFuzzyMatches (lines : List Str) (t : Str) (i : Nat) :
    i ∈ findAllFuzzyMatches lines t ↔ i < lines.length ∧ normalize (lines.getD i []) = t := by
  rw [findAllFuzzyMatches, mem_findAllFuzzyMatchesAux]
  constructor
  · rintro ⟨j, hj, hij, hn⟩
    rw [Nat.zero_add] at hij
    exact ⟨hij ▸ hj, hij ▸ hn⟩
  · rintro ⟨hl, hn⟩
    exact ⟨i, hl, by omega, hn⟩

/-- The branch of `findLineMatches` taken when some exact match exists. -/
theorem findLineMatches_pos (lines : List Str) (target : Str)
    (h : findAllFuzzyMatches lines (normalize target) ≠ []) :
    findLineMatches lines target =
      { exact := findAllFuzzyMatches lines (normalize target), close := [] } := by
  rw [findLineMatches]
  simp only
  rw [if_pos]
  exact List.length_pos.mpr h

/-- The branch of `findLineMatches` taken when no exact match exists. -/
theorem findLineMatches_neg (lines : List Str) (target : Str)
    (h : findAllFuzzyMatches lines (normalize target) = []) :
    findLineMatches lines target =
      { exact := [],
        close := (sortByDist (distancesAux (normalize target) 0 lines)).filter
          (fun d => d.dist ≤
            if (normalize target).length / 2 = 0 then 1 else (normalize target).length / 2) } := by
  rw [findLineMatches]
  simp only
  rw [if_neg]
  rw [h]
  simp

/-- Claim C2: if at least one buffer line normalizes to the normalized
target, `findLineMatches` returns exactly the list of all such indices in
ascending order as `exact` together with an empty `close` list; and every
`MatchResult` satisfies the invariant that a non-empty `exact` forces an
empty `close`. -/
theorem c2_exact_priority (lines : List Str) (target : Str) :
    ((∃ l ∈ lines, normalize l = normalize target) →
      (findLineMatches lines target).close = [] ∧
      (findLineMatches lines target).exact.Pairwise (· < ·) ∧
      (∀ i, i ∈ (findLineMatches lines target).exact ↔
        i < lines.length ∧ normalize (lines.getD i []) = normalize target)) ∧
    ((findLineMatches lines target).exact ≠ [] → (findLineMatches lines target).close = []) := by
  constructor
  · intro h
    have hne : findAllFuzzyMatches lines (normalize target) ≠ [] := by
      rcases h with ⟨l, hl, hn⟩
      rcases List.mem_iff_getElem.mp hl with ⟨j, hj, he⟩
      intro hnil
      have : j ∈ findAllFuzzyMatches lines (normalize target) := by
        rw [mem_findAllFuzzyMatches]
        refine ⟨hj, ?_⟩
        rw [List.getD_eq_getElem lines [] hj, he]
        exact hn
      rw [hnil] at this
      simp at this
    rw [findLineMatches_pos lines target hne]
    refine ⟨rfl, ?_, ?_⟩
    · exact (sorted_findAllFuzzyMatchesAux (normalize target) lines 0).2
    · intro i
      exact mem_findAllFuzzyMatches lines (normalize target) i
  · intro h
    by_cases hne : findAllFuzzyMatches lines (normalize target) = []
    · rw [findLineMatches_neg lines target hne] at h
      simp at h
    · rw [findLineMatches_pos lines target hne]

theorem c2_exact_priority_witness :
    (0 ∈ (findLineMatches [toL "Foo ", toL " foo", toL "bar"] (toL "FOO")).exact ↔
      0 < [toL "Foo ", toL " foo", toL "bar"].length ∧
      normalize ([toL "Foo ", toL " foo", toL "bar"].getD 0 []) = normalize (toL "FOO")) ∧
    (findLineMatches [toL "Foo ", toL " foo", toL "bar"] (toL "FOO")).close = [] :=
  ⟨((c2_exact_priority [toL "Foo ", toL " foo", toL "bar"] (toL "FOO")).1 (by decide)).2.2 0,
   (c2_exact_priority [toL "Foo ", toL " foo", toL "bar"] (toL "FOO")).2 (by decide)⟩

/-! ## Lemmas about the distances table and the stable sort -/

theorem mem_distancesAux (t : Str) (ls : List Str) :
    ∀ (k : Nat) (c : DistEntry), c ∈ distancesAux t k ls ↔
      ∃ j, j < ls.length ∧
        c = ⟨k + j, ls.getD j [], levenshtein (normalize (ls.getD j [])) t⟩ := by
  induction ls with
  | nil => simp [distancesAux]
  | cons a rest ih =>
    intro k c
    rw [distancesAux]
    constructor
    · intro hm
      rcases List.mem_cons.mp hm with h1 | h2
      · exact ⟨0, by simp, by simpa using h1⟩
      · rcases (ih (k + 1) c).mp h2 with ⟨j, hj, he⟩
        exact ⟨j + 1, by simpa using hj, by simpa [Nat.add_assoc, Nat.add_comm 1 j] using he⟩
    · rintro ⟨j, hj, he⟩
      cases j with
      | zero =>
        simp only [List.getD_cons_zero, Nat.add_zero] at he
        exact he ▸ List.mem_cons_self _ _
      | succ j2 =>
        refine List.mem_cons_of_mem _ ((ih (k + 1) c).mpr ⟨j2, by simpa using hj, ?_⟩)
        simpa [Nat.add_assoc, Nat.add_comm 1 j2] using he

theorem pairwise_idx_distancesAux (t : Str) (ls : List Str) :
    ∀ k, (∀ c ∈ distancesAux t k ls, k ≤ c.idx) ∧
      (distancesAux t k ls).Pairwise (fun a b => a.idx < b.idx) := by
  induction ls with
  | nil => intro k; simp [distancesAux]
  | cons a rest ih =>
    intro k
    rw [distancesAux]
    refine ⟨?_, ?_⟩
    · intro c hc
      rcases List.mem_cons.mp hc with h1 | h2
      · rw [h1]
      · have := (ih (k + 1)).1 c h2
        omega
    · rw [List.pairwise_cons]
      refine ⟨?_, (ih (k + 1)).2⟩
      intro c hc
      have := (ih (k + 1)).1 c hc
      simp only
      omega

theorem mem_insertByDist {a x : DistEntry} :
    ∀ l, a ∈ insertByDist x l ↔ a = x ∨ a ∈ l := by
  intro l
  induction l with
  | nil => simp [insertByDist]
  | cons y ys ih =>
    rw [insertByDist]
    by_cases h : y.dist ≤ x.dist
    · rw [if_pos h]
      rw [List.mem_cons, ih, List.mem_cons]
      tauto
    · rw [if_neg h]
      simp [List.mem_cons]

theorem mem_foldl_insertByDist (ls : List DistEntry) :
    ∀ (acc : List DistEntry) (a : DistEntry),
      a ∈ ls.foldl (fun acc x => insertByDist x acc) acc ↔ a ∈ acc ∨ a ∈ ls := by
  induction ls with
  | nil => simp
  | cons x xs ih =>
    intro acc a
    rw [List.foldl_cons, ih, mem_insertByDist, List.mem_cons]
    tauto

theorem mem_sortByDist {a : DistEntry} (l : List DistEntry) :
    a ∈ sortByDist l ↔ a ∈ l := by
  rw [sortByDist, mem_foldl_insertByDist]
  simp

theorem pairwise_insertByDist {x : DistEntry} :
    ∀ {acc : List DistEntry}, acc.Pairwise DistLex → (∀ y ∈ acc, y.idx < x.idx) →
      (insertByDist x acc).Pairwise DistLex := by
  intro acc
  induction acc with
  | nil =>
    intro _ _
    simp [insertByDist]
  | cons y ys ih =>
    intro hp hidx
    rw [List.pairwise_cons] at hp
    obtain ⟨hy, hys⟩ := hp
    rw [insertByDist]
    by_cases h : y.dist ≤ x.dist
    · rw [if_pos h]
      rw [List.pairwise_cons]
      constructor
      · intro z hz
        rcases (mem_insertByDist ys).mp hz with h1 | h2
        · subst h1
          rcases Nat.lt_or_ge y.dist z.dist with hlt | hge
          · exact Or.inl hlt
          · exact Or.inr ⟨by omega, hidx y (List.mem_cons_self y ys)⟩
        · exact hy z h2
      · exact ih hys (fun z hz => hidx z (List.mem_cons_of_mem y hz))
    · rw [if_neg h]
      rw [List.pairwise_cons]
      constructor
      · intro z hz
        rcases List.mem_cons.mp hz with h1 | h2
        · subst h1
          exact Or.inl (by omega)
        · have hz2 : y.dist < z.dist ∨ (y.dist = z.dist ∧ y.idx < z.idx) := hy z h2
          exact Or.inl (by omega)
      · rw [List.pairwise_cons]
        exact ⟨hy, hys⟩

theorem pairwise_foldl_insertByDist (ls : List DistEntry) :
    ∀ (acc : List DistEntry), acc.Pairwise DistLex →
      (∀ y ∈ acc, ∀ x ∈ ls, y.idx < x.idx) →
      ls.Pairwise (fun a b => a.idx < b.idx) →
      (ls.foldl (fun acc x => insertByDist x acc) acc).Pairwise DistLex := by
  induction ls with
  | nil =>
    intro acc h _ _
    exact h
  | cons x xs ih =>
    intro acc hacc hcross hls
    rw [List.pairwise_cons] at hls
    obtain ⟨hx, hxs⟩ := hls
    rw [List.foldl_cons]
    apply ih
    · exact pairwise_insertByDist hacc (fun y hy => hcross y hy x (List.mem_cons_self x xs))
    · intro y hy z hz
      rcases (mem_insertByDist acc).mp hy with h1 | h2
      · subst h1
        exact hx z hz
      · exact hcross y h2 z (List.mem_cons_of_mem x hz)
    · exact hxs

theorem pairwise_sortByDist (l : List DistEntry)
    (h : l.Pairwise (fun a b => a.idx < b.idx)) : (sortByDist l).Pairwise DistLex := by
  rw [sortByDist]
  exact pairwise_foldl_insertByDist l [] (by simp) (by simp) h

/-- Claim C3: with no exact normalized match, `close` consists of exactly
the buffer lines whose distance to the normalized target is at most
`max 1 (floor (length of normalized target / 2))`, ordered by ascending
distance with ties kept in original buffer order. -/
theorem c3_close_matches (lines : List Str) (target : Str)
    (h : ∀ l ∈ lines, normalize l ≠ normalize target) :
    (findLineMatches lines target).exact = [] ∧
    (∀ c, c ∈ (findLineMatches lines target).close ↔
      (c.idx < lines.length ∧ c.text = lines.getD c.idx [] ∧
       c.dist = levenshtein (normalize c.text) (normalize target) ∧
       c.dist ≤ max 1 ((normalize target).length / 2))) ∧
    (findLineMatches lines target).close.Pairwise DistLex := by
  have hnil : findAllFuzzyMatches lines (normalize target) = [] := by
    rw [List.eq_nil_iff_forall_not_mem]
    intro i hi
    rw [mem_findAllFuzzyMatches] at hi
    obtain ⟨hl, hn⟩ := hi
    have hmem : lines.getD i [] ∈ lines := by
      rw [List.getD_eq_getElem lines [] hl]
      exact List.getElem_mem hl
    exact h (lines.getD i []) hmem hn
  rw [findLineMatches_neg lines target hnil]
  have hthr : (if (normalize target).length / 2 = 0 then 1 else (normalize target).length / 2) =
      max 1 ((normalize target).length / 2) := by
    split <;> omega
  refine ⟨rfl, ?_, ?_⟩
  · intro c
    rw [List.mem_filter, mem_sortByDist, mem_distancesAux]
    constructor
    · rintro ⟨⟨j, hj, he⟩, hd⟩
      subst he
      simp only [decide_eq_true_eq] at hd
      rw [← hthr]
      exact ⟨by simpa using hj, by simp, by simp, hd⟩
    · rintro ⟨hidx, htext, hdist, hle⟩
      obtain ⟨ci, ct, cd⟩ := c
      simp only at hidx htext hdist hle
      subst htext
      subst hdist
      refine ⟨⟨ci, hidx, by simp⟩, ?_⟩
      simp only [decide_eq_true_eq]
      rw [hthr]
      exact hle
  · apply List.Pairwise.filter
    exact pairwise_sortByDist _ (pairwise_idx_distancesAux (normalize target) lines 0).2

theorem c3_close_matches_witness :
    (findLineMatches [toL "abc", toL "zzz"] (toL "abd")).exact = [] ∧
    (⟨0, toL "abc", 1⟩ ∈ (findLineMatches [toL "abc", toL "zzz"] (toL "abd")).close ↔
      (0 < [toL "abc", toL "zzz"].length ∧ toL "abc" = [toL "abc", toL "zzz"].getD 0 [] ∧
       1 = levenshtein (normalize (toL "abc")) (normalize (toL "abd")) ∧
       1 ≤ max 1 ((normalize (toL "abd")).length / 2))) :=
  ⟨(c3_close_matches [toL "abc", toL "zzz"] (toL "abd") (by decide)).1,
   (c3_close_matches [toL "abc", toL "zzz"] (toL "abd") (by decide)).2.1 ⟨0, toL "abc", 1⟩⟩

/-! ## Lemmas about the executor -/

theorem fLIWC_of_no_candidates (R : Resolver) (lines : List Str) (target : Str) (op : Op)
    (h1 : (findLineMatches lines target).exact = [])
    (h2 : (findLineMatches lines target).close = []) :
    findLineIndexWithConfirmation R lines target op = ⟨none, false⟩ := by
  rw [findLineIndexWithConfirmation]
  rw [if_pos ⟨by rw [h1]; rfl, by rw [h2]; rfl⟩]

theorem fLIWC_of_single_exact (R : Resolver) (lines : List Str) (target : Str) (op : Op)
    (i : Nat) (h : (findLineMatches lines target).exact = [i]) :
    findLineIndexWithConfirmation R lines target op = ⟨some i, false⟩ := by
  rw [findLineIndexWithConfirmation]
  rw [if_neg (by rw [h]; simp), if_pos (by rw [h]; rfl), h]
  rfl

theorem fLIWC_of_multi_exact (R : Resolver) (lines : List Str) (target : Str) (op : Op)
    (h : (findLineMatches lines target).exact.length > 1) :
    findLineIndexWithConfirmation R lines target op =
      runResolver R op ((findLineMatches lines target).exact.map
        fun idx => ⟨idx, lines.getD idx [], none, true⟩) := by
  rw [findLineIndexWithConfirmation]
  rw [if_neg (by omega), if_neg (by omega), if_pos h]

theorem fLIWC_of_close (R : Resolver) (lines : List Str) (target : Str) (op : Op)
    (h1 : (findLineMatches lines target).exact = [])
    (h2 : (findLineMatches lines target).close ≠ []) :
    findLineIndexWithConfirmation R lines target op =
      runResolver R op ((findLineMatches lines target).close.map
        fun c => ⟨c.idx, c.text, some c.dist, false⟩) := by
  have hl : (findLineMatches lines target).exact.length = 0 := by rw [h1]; rfl
  have hc : (findLineMatches lines target).close.length ≠ 0 := by
    intro hcon
    exact h2 (List.length_eq_zero.mp hcon)
  rw [findLineIndexWithConfirmation]
  rw [if_neg (by omega), if_neg (by omega), if_neg (by omega)]

theorem applyOp_of_skip (R : Resolver) (lines : List Str) (op : Op)
    (h : (findLineIndexWithConfirmation R lines (opTarget op) op).skip = true) :
    applyOp R lines op = lines := by
  rw [applyOp]
  rw [if_pos h]

theorem applyOp_of_no_index (R : Resolver) (lines : List Str) (op : Op)
    (h : (findLineIndexWithConfirmation R lines (opTarget op) op).lineIndex = none) :
    applyOp R lines op = lines := by
  rw [applyOp]
  by_cases hs : (findLineIndexWithConfirmation R lines (opTarget op) op).skip
  · rw [if_pos hs]
  · rw [if_neg hs, h]

/-- Claim C4: during apply, an operation whose resolver answer has neither
exact nor close candidates is skipped with the buffer unchanged; a unique
exact match is used directly for every resolver (no resolution call); more
than one exact match invokes the resolver with the exact candidates
(flagged exact, no distance); no exact but some close matches invokes the
resolver with the close candidates (flagged not exact, with distance) in
resolver order; and a skip answer leaves the buffer unchanged. -/
theorem c4_resolution_protocol (R : Resolver) (lines : List Str) (op : Op) :
    (((findLineMatches lines (opTarget op)).exact = [] ∧
      (findLineMatches lines (opTarget op)).close = []) →
      findLineIndexWithConfirmation R lines (opTarget op) op = ⟨none, false⟩ ∧
      applyOp R lines op = lines) ∧
    (∀ i, (findLineMatches lines (opTarget op)).exact = [i] →
      findLineIndexWithConfirmation R lines (opTarget op) op = ⟨some i, false⟩) ∧
    ((findLineMatches lines (opTarget op)).exact.length > 1 →
      findLineIndexWithConfirmation R lines (opTarget op) op =
        runResolver R op ((findLineMatches lines (opTarget op)).exact.map
          fun idx => ⟨idx, lines.getD idx [], none, true⟩)) ∧
    ((findLineMatches lines (opTarget op)).exact = [] →
      (findLineMatches lines (opTarget op)).close ≠ [] →
      findLineIndexWithConfirmation R lines (opTarget op) op =
        runResolver R op ((findLineMatches lines (opTarget op)).close.map
          fun c => ⟨c.idx, c.text, some c.dist, false⟩)) ∧
    ((findLineIndexWithConfirmation R lines (opTarget op) op).skip = true →
      applyOp R lines op = lines) := by
  refine ⟨?_, ?_, ?_, ?_, ?_⟩
  · rintro ⟨h1, h2⟩
    have he := fLIWC_of_no_candidates R lines (opTarget op) op h1 h2
    exact ⟨he, applyOp_of_no_index R lines op (by rw [he])⟩
  · intro i h
    exact fLIWC_of_single_exact R lines (opTarget op) op i h
  · intro h
    exact fLIWC_of_multi_exact R lines (opTarget op) op h
  · intro h1 h2
    exact fLIWC_of_close R lines (opTarget op) op h1 h2
  · intro h
    exact applyOp_of_skip R lines op h

theorem c4_resolution_protocol_witness :
    (findLineIndexWithConfirmation skipAllResolver [toL "x"] (opTarget (Op.delete (toL "zzzzzz")))
      (Op.delete (toL "zzzzzz")) = ⟨none, false⟩ ∧
     applyOp skipAllResolver [toL "x"] (Op.delete (toL "zzzzzz")) = [toL "x"]) ∧
    (findLineIndexWithConfirmation skipAllResolver [toL "foo", toL "bar"]
      (opTarget (Op.delete (toL "foo"))) (Op.delete (toL "foo")) = ⟨some 0, false⟩) ∧
    (applyOp skipAllResolver [toL "foo", toL "foo"] (Op.delete (toL "foo")) =
      [toL "foo", toL "foo"]) :=
  ⟨(c4_resolution_protocol skipAllResolver [toL "x"] (Op.delete (toL "zzzzzz"))).1
      ⟨by decide, by decide⟩,
   (c4_resolution_protocol skipAllResolver [toL "foo", toL "bar"] (Op.delete (toL "foo"))).2.1
      0 (by decide),
   (c4_resolution_protocol skipAllResolver [toL "foo", toL "foo"] (Op.delete (toL "foo"))).2.2.2.2
      (by decide)⟩

/-- Claim C5: an operation applied at chosen index `i` performs the splice
of its kind: Delete removes line `i`; Replace removes line `i` and inserts
its new lines there in order; Insert inserts its new lines immediately
after index `i`. Concretely, Delete of "foo" on the buffer "foo", "bar"
yields "bar", and Replace of "foo" by "baz1", "baz2" yields "baz1",
"baz2", "bar". -/
theorem c5_edit_effects (R : Resolver) (lines : List Str) :
    (∀ (content : Str) (i : Nat),
      findLineIndexWithConfirmation R lines content (Op.delete content) = ⟨some i, false⟩ →
      applyOp R lines (Op.delete content) = lines.take i ++ lines.drop (i + 1)) ∧
    (∀ (oldLines newLines : List Str) (i : Nat),
      findLineIndexWithConfirmation R lines (opTarget (Op.replace oldLines newLines))
        (Op.replace oldLines newLines) = ⟨some i, false⟩ →
      applyOp R lines (Op.replace oldLines newLines) =
        lines.take i ++ newLines ++ lines.drop (i + 1)) ∧
    (∀ (anchor : Str) (newLines : List Str) (i : Nat),
      findLineIndexWithConfirmation R lines anchor (Op.insert anchor newLines) =
        ⟨some i, false⟩ →
      applyOp R lines (Op.insert anchor newLines) =
        lines.take (i + 1) ++ newLines ++ lines.drop (i + 1)) ∧
    applyOps skipAllResolver [toL "foo", toL "bar"] [Op.delete (toL "foo")] = [toL "bar"] ∧
    applyOps skipAllResolver [toL "foo", toL "bar"]
      [Op.replace [toL "foo"] [toL "baz1", toL "baz2"]] =
      [toL "baz1", toL "baz2", toL "bar"] := by
  refine ⟨?_, ?_, ?_, by decide, by decide⟩
  · intro content i h
    rw [applyOp]
    simp only [opTarget]
    rw [h]
    rfl
  · intro oldLines newLines i h
    simp only [opTarget] at h
    rw [applyOp]
    simp only [opTarget]
    rw [h]
    rfl
  · intro anchor newLines i h
    rw [applyOp]
    simp only [opTarget]
    rw [h]
    rfl

theorem c5_edit_effects_witness :
    applyOp skipAllResolver [toL "foo", toL "bar"] (Op.delete (toL "foo")) =
      [toL "foo", toL "bar"].take 0 ++ [toL "foo", toL "bar"].drop 1 :=
  (c5_edit_effects skipAllResolver [toL "foo", toL "bar"]).1 (toL "foo") 0 (by decide)

/-- Claim C6: operations are applied strictly in script order against the
same progressively mutated buffer: `applyOps` on `op :: ops` first applies
`op` and feeds the mutated buffer to the remaining operations. In
particular, applying Insert of "x" after "a" and then Delete of "x" to the
one-line buffer "a" yields "a" again: the delete finds and removes the
line the insert just created. -/
theorem c6_sequential_application (R : Resolver) (lines : List Str) (op : Op) (ops : List Op) :
    applyOps R lines (op :: ops) = applyOps R (applyOp R lines op) ops ∧
    applyOps skipAllResolver [toL "a"]
      [Op.insert (toL "a") [toL "x"], Op.delete (toL "x")] = [toL "a"] := by
  constructor
  · rw [applyOps, List.foldl_cons]
    rfl
  · decide

/-! ## Lemmas about `parseCommands` -/

theorem parseCommands_nil : parseCommands [] = [] := by
  rw [parseCommands]

theorem parseCommands_cons_delete (l : Str) (rest : List Str)
    (h : (['D', '-'] : Str).isPrefixOf (jsTrim l) = true) :
    parseCommands (l :: rest) =
      Op.delete (jsTrim ((jsTrim l).drop 2)) :: parseCommands rest := by
  rw [parseCommands, if_pos h]

theorem parseCommands_cons_replace (l : Str) (rest : List Str)
    (h1 : (['D', '-'] : Str).isPrefixOf (jsTrim l) = false)
    (h2 : (['M', '-'] : Str).isPrefixOf (jsTrim l) = true) :
    parseCommands (l :: rest) =
      Op.replace [jsTrim ((jsTrim l).drop 2)] (takeContinuation ['M', '+', '-'] 3 rest).1 ::
        parseCommands (rest.drop (takeContinuation ['M', '+', '-'] 3 rest).2) := by
  rw [parseCommands, if_neg (by rw [h1]; simp), if_pos h2]

theorem parseCommands_cons_insert (l : Str) (rest : List Str)
    (h1 : (['D', '-'] : Str).isPrefixOf (jsTrim l) = false)
    (h2 : (['M', '-'] : Str).isPrefixOf (jsTrim l) = false)
    (h3 : (['A', 'F', '+'] : Str).isPrefixOf (jsTrim l) = true) :
    parseCommands (l :: rest) =
      Op.insert (jsTrim ((jsTrim l).drop 3)) (takeContinuation ['N', 'A', 'D', '+'] 4 rest).1 ::
        parseCommands (rest.drop (takeContinuation ['N', 'A', 'D', '+'] 4 rest).2) := by
  rw [parseCommands, if_neg (by rw [h1]; simp), if_neg (by rw [h2]; simp), if_pos h3]

theorem parseCommands_cons_skip (l : Str) (rest : List Str)
    (h1 : (['D', '-'] : Str).isPrefixOf (jsTrim l) = false)
    (h2 : (['M', '-'] : Str).isPrefixOf (jsTrim l) = false)
    (h3 : (['A', 'F', '+'] : Str).isPrefixOf (jsTrim l) = false) :
    parseCommands (l :: rest) = parseCommands rest := by
  rw [parseCommands, if_neg (by rw [h1]; simp), if_neg (by rw [h2]; simp),
    if_neg (by rw [h3]; simp)]

/-- Claim C7: the parser is a single left-to-right pass in which a script
line matching no directive prefix produces zero operations and does not
abort the parsing of the following lines; and the five-line script
"D-bar", "M-foo", "M+-newfoo", "AF+newfoo", "NAD+tail" parses into exactly
Delete "bar", Replace "foo" by "newfoo", Insert "tail" after "newfoo", in
that order. -/
theorem c7_parser_permissive (l : Str) (rest : List Str) :
    ((['D', '-'] : Str).isPrefixOf (jsTrim l) = false →
     (['M', '-'] : Str).isPrefixOf (jsTrim l) = false →
     (['A', 'F', '+'] : Str).isPrefixOf (jsTrim l) = false →
     parseCommands (l :: rest) = parseCommands rest) ∧
    parseCommands [toL "D-bar", toL "M-foo", toL "M+-newfoo", toL "AF+newfoo", toL "NAD+tail"] =
      [Op.delete (toL "bar"), Op.replace [toL "foo"] [toL "newfoo"],
       Op.insert (toL "newfoo") [toL "tail"]] := by
  constructor
  · exact parseCommands_cons_skip l rest
  · have e1 : parseCommands [toL "AF+newfoo", toL "NAD+tail"] =
        [Op.insert (toL "newfoo") [toL "tail"]] := by
      rw [parseCommands_cons_insert _ _ (by decide) (by decide) (by decide),
        show List.drop (takeContinuation ['N', 'A', 'D', '+'] 4 [toL "NAD+tail"]).2
          [toL "NAD+tail"] = ([] : List Str) from rfl, parseCommands_nil]
      decide
    have e2 : parseCommands [toL "M-foo", toL "M+-newfoo", toL "AF+newfoo", toL "NAD+tail"] =
        [Op.replace [toL "foo"] [toL "newfoo"], Op.insert (toL "newfoo") [toL "tail"]] := by
      rw [parseCommands_cons_replace _ _ (by decide) (by decide),
        show List.drop (takeContinuation ['M', '+', '-'] 3
          [toL "M+-newfoo", toL "AF+newfoo", toL "NAD+tail"]).2
          [toL "M+-newfoo", toL "AF+newfoo", toL "NAD+tail"] =
          [toL "AF+newfoo", toL "NAD+tail"] from rfl, e1]
      decide
    rw [parseCommands_cons_delete _ _ (by decide), e2]
    decide

theorem c7_parser_permissive_witness :
    parseCommands [toL "// comment", toL "D-x"] = parseCommands [toL "D-x"] :=
  (c7_parser_permissive (toL "// comment") [toL "D-x"]).1 (by decide) (by decide) (by decide)

/-! ## Lemmas about the annotated diff builder -/

theorem findFirstFuzzyIndexAux_some (n : Str) (ann : List AnnLine) :
    ∀ (k i : Nat), findFirstFuzzyIndexAux n k ann = some i →
      k ≤ i ∧ i - k < ann.length ∧
      (normalize (ann.getD (i - k) ⟨[], .unchanged⟩).text = n ∧
       (ann.getD (i - k) ⟨[], .unchanged⟩).status = LineStatus.unchanged) ∧
      ∀ j, j < i - k → ¬(normalize (ann.getD j ⟨[], .unchanged⟩).text = n ∧
        (ann.getD j ⟨[], .unchanged⟩).status = LineStatus.unchanged) := by
  induction ann with
  | nil =>
    intro k i h
    simp [findFirstFuzzyIndexAux] at h
  | cons a rest ih =>
    intro k i h
    rw [findFirstFuzzyIndexAux] at h
    by_cases hp : normalize a.text = n ∧ a.status = LineStatus.unchanged
    · rw [if_pos hp] at h
      simp only [Option.some.injEq] at h
      subst h
      refine ⟨Nat.le_refl k, ?_, ?_, ?_⟩
      · simp
      · simpa using hp
      · intro j hj
        omega
    · rw [if_neg hp] at h
      obtain ⟨hk, hlen, hhit, hbefore⟩ := ih (k + 1) i h
      have hik : i - k = (i - (k + 1)) + 1 := by omega
      refine ⟨by omega, ?_, ?_, ?_⟩
      · simp only [List.length_cons]
        omega
      · rw [hik]
        simpa using hhit
      · intro j hj
        cases j with
        | zero => simpa using hp
        | succ j2 =>
          have : j2 < i - (k + 1) := by omega
          have hb := hbefore j2 this
          simpa using hb

theorem findFirstFuzzyIndex_some (ann : List AnnLine) (txt : Str) (i : Nat)
    (h : findFirstFuzzyIndex ann txt = some i) :
    i < ann.length ∧
    (normalize (ann.getD i ⟨[], .unchanged⟩).text = normalize txt ∧
     (ann.getD i ⟨[], .unchanged⟩).status = LineStatus.unchanged) ∧
    ∀ j, j < i → ¬(normalize (ann.getD j ⟨[], .unchanged⟩).text = normalize txt ∧
      (ann.getD j ⟨[], .unchanged⟩).status = LineStatus.unchanged) := by
  obtain ⟨_, hlen, hhit, hbefore⟩ := findFirstFuzzyIndexAux_some (normalize txt) ann 0 i h
  simp only [Nat.sub_zero] at hlen hhit hbefore
  exact ⟨hlen, hhit, hbefore⟩

theorem annStep_of_none (ann : List AnnLine) (op : Op)
    (h : findFirstFuzzyIndex ann (opTarget op) = none) : annStep ann op = ann := by
  cases op with
  | delete content =>
    simp only [opTarget] at h
    rw [annStep, h]
  | replace oldLines newLines =>
    simp only [opTarget] at h
    rw [annStep, h]
  | insert anchor newLines =>
    simp only [opTarget] at h
    rw [annStep, h]

/-- Claim C8: the annotated diff builder processes the operations in
order, each operation matching the first line still tagged unchanged whose
normalized text equals its normalized target; Delete tags that line
deleted, Replace tags it deleted and splices its new lines after it tagged
inserted, Insert splices its new lines after it tagged inserted; an
operation with no unchanged match contributes nothing; the returned
sequence consists exactly of the entries whose status is not unchanged, in
final sequence order. -/
theorem c8_annotated_builder :
    (∀ (ann : List AnnLine) (txt : Str) (i : Nat), findFirstFuzzyIndex ann txt = some i →
      i < ann.length ∧
      (normalize (ann.getD i ⟨[], .unchanged⟩).text = normalize txt ∧
       (ann.getD i ⟨[], .unchanged⟩).status = LineStatus.unchanged) ∧
      ∀ j, j < i → ¬(normalize (ann.getD j ⟨[], .unchanged⟩).text = normalize txt ∧
        (ann.getD j ⟨[], .unchanged⟩).status = LineStatus.unchanged)) ∧
    (∀ (ann : List AnnLine) (op : Op),
      findFirstFuzzyIndex ann (opTarget op) = none → annStep ann op = ann) ∧
    (∀ (ann : List AnnLine) (content : Str) (i : Nat),
      findFirstFuzzyIndex ann content = some i →
      annStep ann (Op.delete content) =
        ann.set i ⟨(ann.getD i ⟨[], .unchanged⟩).text, .deleted⟩) ∧
    (∀ (ann : List AnnLine) (oldLines newLines : List Str) (i : Nat),
      findFirstFuzzyIndex ann (oldLines.headD []) = some i →
      annStep ann (Op.replace oldLines newLines) =
        (ann.set i ⟨(ann.getD i ⟨[], .unchanged⟩).text, .deleted⟩).take (i + 1) ++
          newLines.map (fun n => (⟨n, .inserted⟩ : AnnLine)) ++
          (ann.set i ⟨(ann.getD i ⟨[], .unchanged⟩).text, .deleted⟩).drop (i + 1)) ∧
    (∀ (ann : List AnnLine) (anchor : Str) (newLines : List Str) (i : Nat),
      findFirstFuzzyIndex ann anchor = some i →
      annStep ann (Op.insert anchor newLines) =
        ann.take (i + 1) ++ newLines.map (fun n => (⟨n, .inserted⟩ : AnnLine)) ++
          ann.drop (i + 1)) ∧
    (∀ (original : List Str) (op : Op) (ops : List Op),
      buildAnnotatedResult original (op :: ops) =
        (ops.foldl annStep
          (annStep (original.map fun txt => (⟨txt, .unchanged⟩ : AnnLine)) op)).filter
          (fun a => a.status != LineStatus.unchanged)) ∧
    (∀ (original : List Str) (ops : List Op) (a : AnnLine),
      a ∈ buildAnnotatedResult original ops → a.status ≠ LineStatus.unchanged) := by
  refine ⟨findFirstFuzzyIndex_some, annStep_of_none, ?_, ?_, ?_, ?_, ?_⟩
  · intro ann content i h
    rw [annStep, h]
  · intro ann oldLines newLines i h
    rw [annStep, h]
  · intro ann anchor newLines i h
    rw [annStep, h]
  · intro original op ops
    rw [buildAnnotatedResult, List.foldl_cons]
  · intro original ops a h
    rw [buildAnnotatedResult] at h
    have hb := (List.mem_filter.mp h).2
    simpa using hb

theorem c8_annotated_builder_witness :
    annStep [(⟨toL "zzz", LineStatus.unchanged⟩ : AnnLine)] (Op.delete (toL "q")) =
      [(⟨toL "zzz", LineStatus.unchanged⟩ : AnnLine)] ∧
    annStep [(⟨toL "foo", LineStatus.unchanged⟩ : AnnLine)] (Op.delete (toL "foo")) =
      [(⟨toL "foo", LineStatus.unchanged⟩ : AnnLine)].set 0
        ⟨([(⟨toL "foo", LineStatus.unchanged⟩ : AnnLine)].getD 0 ⟨[], .unchanged⟩).text,
          .deleted⟩ :=
  ⟨(c8_annotated_builder).2.1 [(⟨toL "zzz", LineStatus.unchanged⟩ : AnnLine)]
      (Op.delete (toL "q")) (by decide),
   (c8_annotated_builder).2.2.1 [(⟨toL "foo", LineStatus.unchanged⟩ : AnnLine)]
      (toL "foo") 0 (by decide)⟩

/-! ## Claim C1: the reported statistics -/

theorem insertFold_eq (ops : List Op) :
    ∀ acc : Nat, (ops.filter isInsertOp).foldl
      (fun sum o => sum + (match o with
        | Op.insert _ newLines => newLines.length
        | _ => 0)) acc =
      acc + (ops.map fun o => if isInsertOp o then (opNewLines o).length else 0).sum := by
  induction ops with
  | nil => simp
  | cons o rest ih =>
    intro acc
    rw [List.map_cons, List.sum_cons, List.filter_cons]
    cases o with
    | delete content =>
      rw [if_neg (show ¬(isInsertOp (Op.delete content) = true) from by simp [isInsertOp]),
        if_neg (show ¬(isInsertOp (Op.delete content) = true) from by simp [isInsertOp]), ih acc]
      omega
    | replace oldLines newLines =>
      rw [if_neg (show ¬(isInsertOp (Op.replace oldLines newLines) = true) from by
          simp [isInsertOp]),
        if_neg (show ¬(isInsertOp (Op.replace oldLines newLines) = true) from by
          simp [isInsertOp]), ih acc]
      omega
    | insert anchor newLines =>
      rw [if_pos (show isInsertOp (Op.insert anchor newLines) = true from rfl),
        if_pos (show isInsertOp (Op.insert anchor newLines) = true from rfl)]
      simp only [List.foldl_cons]
      rw [ih (acc + newLines.length)]
      simp only [opNewLines]
      omega

/-- Claim C1 (amended): the statistics reported by an apply run are
computed from the selected operations alone, regardless of whether each
operation was actually applied: the delete and replace counts are the
numbers of selected Delete and Replace operations, and the insert count is
the total number of new lines across selected Insert operations; the
statistics are independent of the buffer and of the resolver, so skipped
operations are still counted. -/
theorem c1_stats_selected (R R2 : Resolver) (lines lines2 : List Str) (ops : List Op) :
    (handleApply R lines ops).2.2 = (handleApply R2 lines2 ops).2.2 ∧
    (handleApply R lines ops).2.2.deletes = ops.countP isDeleteOp ∧
    (handleApply R lines ops).2.2.replaces = ops.countP isReplaceOp ∧
    (handleApply R lines ops).2.2.inserts =
      (ops.map fun o => if isInsertOp o then (opNewLines o).length else 0).sum := by
  refine ⟨rfl, ?_, ?_, ?_⟩
  · exact (List.countP_eq_length_filter isDeleteOp ops).symm
  · exact (List.countP_eq_length_filter isReplaceOp ops).symm
  · have h := insertFold_eq ops 0
    rw [Nat.zero_add] at h
    exact h

/-- Claim C1, counterexample to the claim as stated: a run in which the
single selected Delete operation is skipped (no exact and no close match
for its target), so the buffer is unchanged and zero deletes are actually
applied, yet the reported delete count is 1 — equal to, not strictly lower
than, the count over all selected operations. -/
theorem c1_stats_counterexample :
    applyOps skipAllResolver [toL "bar"] [Op.delete (toL "zzzzzz")] = [toL "bar"] ∧
    (handleApply skipAllResolver [toL "bar"] [Op.delete (toL "zzzzzz")]).2.2.deletes = 1 ∧
    ¬((handleApply skipAllResolver [toL "bar"] [Op.delete (toL "zzzzzz")]).2.2.deletes <
      ([Op.delete (toL "zzzzzz")].filter isDeleteOp).length) := by
  refine ⟨by decide, by decide, by decide⟩

/-! ## Claim C10: targets that normalize to the empty string -/

theorem collapseWsAux_false_eq_nil_iff (l : Str) : collapseWsAux false l = [] ↔ l = [] := by
  cases l with
  | nil => simp [collapseWsAux]
  | cons a t =>
    simp only [List.cons_ne_nil, iff_false]
    exact collapseWsAux_false_ne_nil a t

theorem normalize_eq_nil_iff (s : Str) :
    normalize s = [] ↔ ∀ c ∈ s, isWs c = true ∨ isZeroWidth c = true := by
  rw [normalize, collapseWs, collapseWsAux_false_eq_nil_iff, List.map_eq_nil_iff,
    jsTrim_eq_nil_iff]
  constructor
  · intro h c hc
    by_cases hz : isZeroWidth c = true
    · exact Or.inr hz
    · refine Or.inl (h c ?_)
      rw [List.mem_filter]
      exact ⟨hc, by simp [hz]⟩
  · intro h c hc
    rw [List.mem_filter] at hc
    rcases h c hc.1 with h1 | h2
    · exact h1
    · have := hc.2
      rw [h2] at this
      simp at this

theorem levenshtein_nil_right (a : Str) : levenshtein a [] = a.length := by
  rw [levenshtein]
  by_cases h : a.length = 0
  · rw [if_pos h]
    simp [h]
  · rw [if_neg h, if_pos (show ([] : Str).length = 0 from rfl)]

theorem exact_findLineMatches (lines : List Str) (target : Str) :
    (findLineMatches lines target).exact = findAllFuzzyMatches lines (normalize target) := by
  by_cases h : findAllFuzzyMatches lines (normalize target) = []
  · rw [findLineMatches_neg lines target h, h]
  · rw [findLineMatches_pos lines target h]

/-- Claim C10: when the target normalizes to the empty string (for
example, the content captured from a bare "D-" directive), the exact
matches are exactly the buffer lines consisting only of whitespace and
zero-width characters; and when no such line exists the threshold
evaluates to 1 rather than 0, so every close candidate is within distance
1 and every line whose normalized length is at most 1 appears as a close
candidate — an empty target can still select a line to edit. -/
theorem c10_empty_target (lines : List Str) (target : Str) (hT : normalize target = []) :
    (∀ i, i ∈ (findLineMatches lines target).exact ↔
      i < lines.length ∧ ∀ c ∈ lines.getD i [], isWs c = true ∨ isZeroWidth c = true) ∧
    ((∀ l ∈ lines, ¬(∀ c ∈ l, isWs c = true ∨ isZeroWidth c = true)) →
      (∀ c ∈ (findLineMatches lines target).close, c.dist ≤ 1) ∧
      (∀ i, i < lines.length → (normalize (lines.getD i [])).length ≤ 1 →
        ∃ c ∈ (findLineMatches lines target).close, c.idx = i)) := by
  constructor
  · intro i
    rw [exact_findLineMatches, mem_findAllFuzzyMatches, hT]
    constructor
    · rintro ⟨hl, hn⟩
      exact ⟨hl, (normalize_eq_nil_iff _).mp hn⟩
    · rintro ⟨hl, hc⟩
      exact ⟨hl, (normalize_eq_nil_iff _).mpr hc⟩
  · intro hno
    have hnil : findAllFuzzyMatches lines (normalize target) = [] := by
      rw [List.eq_nil_iff_forall_not_mem]
      intro i hi
      rw [mem_findAllFuzzyMatches, hT] at hi
      obtain ⟨hl, hn⟩ := hi
      have hmem : lines.getD i [] ∈ lines := by
        rw [List.getD_eq_getElem lines [] hl]
        exact List.getElem_mem hl
      exact hno (lines.getD i []) hmem ((normalize_eq_nil_iff _).mp hn)
    rw [findLineMatches_neg lines target hnil]
    have hthr : (if (normalize target).length / 2 = 0 then 1
        else (normalize target).length / 2) = 1 := by
      rw [hT]
      simp
    rw [hthr]
    constructor
    · intro c hc
      have := (List.mem_filter.mp hc).2
      simpa using this
    · intro i hl hlen
      refine ⟨⟨i, lines.getD i [],
        levenshtein (normalize (lines.getD i [])) (normalize target)⟩, ?_, rfl⟩
      rw [List.mem_filter, mem_sortByDist, mem_distancesAux]
      refine ⟨⟨i, hl, by simp⟩, ?_⟩
      simp only [decide_eq_true_eq]
      rw [hT, levenshtein_nil_right]
      exact hlen

theorem c10_empty_target_witness :
    ∃ c ∈ (findLineMatches [toL "ab", toL "x"] (toL "")).close, c.idx = 1 :=
  ((c10_empty_target [toL "ab", toL "x"] (toL "") (by decide)).2 (by decide)).2 1
    (by decide) (by decide)

end LegendPatcher
